import Mathlib

/-!
# Verification of the `collective.transmute` step-pipeline engine

A shallow embedding, in Lean 4, of the parts of `collective.transmute`
(a batch converter from the `collective.exportimport` JSON layout to the
`plone.exportimport` layout) that the verified claims are about:

* `utils/item.py` — `all_parents_for`;
* `pipeline/__init__.py` — `_add_to_drop`, the per-item engine `_pipeline`
  and the run orchestrator `pipeline`;
* `utils/exportimport/__init__.py` — `prepare_metadata_file` and
  `prepare_relations_data`;
* `utils/files.py` — `_sort_content_files`;
* `utils/__init__.py` — `load_step` and `check_steps`;
* `steps/ids.py` — `fix_short_id` and `process_ids`.

Python strings are modelled as `List Char` (`Str`), dicts that are used as
sets/maps of strings as `Finset Str` / association lists, and Python's
exception outcomes as `Except`/`Option` results.  Functions are named after
the source functions they embed.
-/

/-- Python strings, modelled as their list of characters. -/
abbrev Str : Type := List Char

/-- Coercion from Lean string literals to the `Str` model. -/
def str (s : String) : Str := s.data

/-- Python `s.split(sep)` for a single-character separator: splits on every
occurrence, keeping empty pieces (`"".split("/") == [""]`,
`"/a/".split("/") == ["", "a", ""]`). -/
def pySplit (sep : Char) : Str → List Str
  | [] => [[]]
  | c :: cs =>
    let rest := pySplit sep cs
    if c = sep then [] :: rest
    else
      match rest with
      | [] => [[c]]
      | r :: rs => (c :: r) :: rs

/-- Python `sep.join(parts)` for a single-character separator. -/
def pyJoin (sep : Char) : List Str → Str
  | [] => []
  | [x] => x
  | x :: xs => x ++ sep :: pyJoin sep xs

/-- Python `s.strip()`: remove leading and trailing whitespace. -/
def pyStrip (s : Str) : Str :=
  ((s.dropWhile Char.isWhitespace).reverse.dropWhile Char.isWhitespace).reverse

/-- `utils/item.py` `all_parents_for`: all ancestor path prefixes of `id_`,
obtained by joining every proper prefix of the `/`-separated parts and
keeping only the non-blank ones.  Returned as a set, as in the source. -/
def all_parents_for (id_ : Str) : Finset Str :=
  let parts := pySplit '/' id_
  ((List.range parts.length).filterMap fun idx =>
    let parent_path := pyJoin '/' (parts.take idx)
    if pyStrip parent_path = [] then none else some parent_path).toFinset

/-- `pipeline/__init__.py` `_add_to_drop`: functional rendering of the
mutation of `pb_config.paths.filter.drop`.  `allowed` is
`pb_config.paths.filter.allowed`, `dropSet` the drop set before the call;
the result is the drop set after the call. -/
def add_to_drop (allowed dropSet : Finset Str) (path : Str) : Finset Str :=
  let parents := all_parents_for path
  let valid_path := parents ∩ allowed
  if valid_path = ∅ then dropSet
  else
    let already_in_drop := parents ∩ dropSet
    if already_in_drop = ∅ then insert path dropSet else dropSet

-- Sanity check of the ancestor computation on the spec's example.
example : all_parents_for (str "/p/sub/child") = {str "/p", str "/p/sub"} := by decide

/-- C4: marking a path dropped is a no-op when no strict ancestor prefix is
allowed; a no-op when a strict ancestor prefix is already drop-marked; and
otherwise adds exactly the path itself to the drop set. -/
theorem add_to_drop_spec (allowed dropSet : Finset Str) (path : Str) :
    (all_parents_for path ∩ allowed = ∅ →
      add_to_drop allowed dropSet path = dropSet) ∧
    (all_parents_for path ∩ allowed ≠ ∅ → all_parents_for path ∩ dropSet ≠ ∅ →
      add_to_drop allowed dropSet path = dropSet) ∧
    (all_parents_for path ∩ allowed ≠ ∅ → all_parents_for path ∩ dropSet = ∅ →
      add_to_drop allowed dropSet path = insert path dropSet) := by
  refine ⟨fun h => ?_, fun h h' => ?_, fun h h' => ?_⟩
  · simp [add_to_drop, h]
  · simp [add_to_drop, h, h']
  · simp [add_to_drop, h, h']

/-- C4 witness: the claim's own example — dropping `/a/b/c` while the
ancestor `/a/b` is already drop-marked leaves the drop set unchanged. -/
theorem add_to_drop_spec_witness :
    all_parents_for (str "/a/b/c") ∩ ({str "/a"} : Finset Str) ≠ ∅ ∧
    all_parents_for (str "/a/b/c") ∩ ({str "/a/b"} : Finset Str) ≠ ∅ ∧
    add_to_drop {str "/a"} {str "/a/b"} (str "/a/b/c") = {str "/a/b"} :=
  ⟨by decide, by decide,
    (add_to_drop_spec {str "/a"} {str "/a/b"} (str "/a/b/c")).2.1
      (by decide) (by decide)⟩

/-!
## The per-item pipeline engine (`pipeline/__init__.py` `_pipeline`)

An item is an open dict in the source; the engine and the orchestrator
only ever read the keys modelled below.  A `none` working item models the
falsy values a step can leave behind (`None`, or an emptied dict).
-/

/-- The fields of a content item that the engine/orchestrator read.
`is_new_item` models the presence of a truthy `_is_new_item` marker and
`old_uid` the optional `_UID` key. -/
structure Item where
  uid : Str
  atId : Str
  atType : Str
  review_state : Option Str := none
  is_folderish : Bool := false
  is_new_item : Bool := false
  old_uid : Option Str := none
deriving DecidableEq, Repr

/-- `item.pop("_is_new_item", False)`: the item with the marker stripped. -/
def popNew (it : Item) : Item := { it with is_new_item := false }

/-- A resolved pipeline step: its `__name__` and its behaviour.  A step
receives the item and the shared metadata (of abstract type `σ`) and
produces a finite sequence of `Item`-or-absent results, possibly updating
the metadata. -/
structure PipelineStep (σ : Type) where
  name : Str
  run : Item → σ → List (Option Item) × σ

/-- The configuration the engine consults:
`pb_config.paths.filter.allowed` and `pb_config.pipeline.do_not_add_drop`. -/
structure EngineConfig where
  allowed : Finset Str
  do_not_add_drop : List Str

/-- The mutable state threaded through a run: the shared metadata object
and `pb_config.paths.filter.drop` (mutated only by `_add_to_drop`). -/
structure PipeCtx (σ : Type) where
  meta : σ
  dropSet : Finset Str
deriving DecidableEq

/-- One yielded result of `_pipeline`:
`(item_or_absent, last_step_name, is_synthesized)`. -/
abbrev Yld : Type := Option Item × Str × Bool

/-- Re-yield a recursive result tagged as synthesized
(`yield sub_item, last_step, True`). -/
def tagSynth (y : Yld) : Yld := (y.1, y.2.1, true)

/-- The body of `async for item in result:` in `_pipeline`, processing the
sequence of results one step produced.  `recurse` is the engine's
self-invocation for synthesized items; `item_id`/`is_folderish` are the
pre-step values captured before the step ran, and `addDrop` is
`step_name not in pb_config.pipeline.do_not_add_drop`.  Returns the
yields emitted during the loop, the updated state, and the loop
variable's final value (the working item for the next step).
`none` signals that a recursive invocation failed (fuel exhausted). -/
def processResults {σ : Type}
    (recurse : Item → PipeCtx σ → Option (List Yld × PipeCtx σ))
    (cfg : EngineConfig) (item_id : Str) (is_folderish addDrop : Bool) :
    List (Option Item) → Option Item → PipeCtx σ →
      Option (List Yld × PipeCtx σ × Option Item)
  | [], cur, ctx => some ([], ctx, cur)
  | r :: rs, _, ctx =>
    match r with
    | none =>
      let ctx' :=
        if is_folderish && addDrop then
          { ctx with dropSet := add_to_drop cfg.allowed ctx.dropSet item_id }
        else ctx
      processResults recurse cfg item_id is_folderish addDrop rs none ctx'
    | some it =>
      if it.is_new_item then
        (recurse (popNew it) ctx).bind fun rec_out =>
          (processResults recurse cfg item_id is_folderish addDrop rs
              (some (popNew it)) rec_out.2).map
            fun pr => (rec_out.1.map tagSynth ++ pr.1, pr.2.1, pr.2.2)
      else
        processResults recurse cfg item_id is_folderish addDrop rs (some it) ctx

/-- The `for step in steps:` loop of `_pipeline`.  Mirrors the source:
`step_name` is (re)assigned at the top of every iteration — before the
skip check for an absent item — so after the loop it holds the name of
the last configured step.  Returns the yields emitted inside the loop,
the final state, the final working item and the final `step_name`. -/
def runSteps {σ : Type}
    (recurse : Item → PipeCtx σ → Option (List Yld × PipeCtx σ))
    (cfg : EngineConfig) :
    List (PipelineStep σ) → Option Item → Str → PipeCtx σ →
      Option (List Yld × PipeCtx σ × Option Item × Str)
  | [], cur, last, ctx => some ([], ctx, cur, last)
  | s :: rest, cur, _, ctx =>
    match cur with
    | none => runSteps recurse cfg rest none s.name ctx
    | some it =>
      let stepRes := s.run it ctx.meta
      (processResults recurse cfg it.atId it.is_folderish
          (!(cfg.do_not_add_drop.contains s.name)) stepRes.1 (some it)
          { ctx with meta := stepRes.2 }).bind
        fun pr => (runSteps recurse cfg rest pr.2.2 s.name pr.2.1).map
          fun rr => (pr.1 ++ rr.1, rr.2)

/-- `_pipeline`: runs one item through the whole configured step list and
returns the sequence of `(item_or_absent, last_step, is_synthesized)`
yields together with the final shared state.  `fuel` bounds the recursion
depth for synthesized items (the Python generator recurses without
bound); `none` means the fuel ran out — or that the step list is empty,
in which case the final `yield item, step_name, False` would raise
`NameError` in the source. -/
def pipelineRun {σ : Type} (cfg : EngineConfig) (steps : List (PipelineStep σ)) :
    Nat → Item → PipeCtx σ → Option (List Yld × PipeCtx σ)
  | 0, _, _ => none
  | fuel + 1, item, ctx =>
    if steps.isEmpty then none
    else
      (runSteps (pipelineRun cfg steps fuel) cfg steps (some item) [] ctx).map
        fun rr => (rr.1 ++ [(rr.2.2.1, rr.2.2.2, false)], rr.2.1)

/-- Every yield emitted inside the result loop is tagged as synthesized:
the only `yield` inside `async for item in result` is
`yield sub_item, last_step, True`. -/
theorem processResults_out_true {σ : Type}
    (recurse : Item → PipeCtx σ → Option (List Yld × PipeCtx σ))
    (cfg : EngineConfig) (iid : Str) (fol ad : Bool) :
    ∀ (rs : List (Option Item)) (cur : Option Item) (ctx : PipeCtx σ)
      (out : List Yld) (ctx' : PipeCtx σ) (cur' : Option Item),
      processResults recurse cfg iid fol ad rs cur ctx = some (out, ctx', cur') →
      ∀ y ∈ out, y.2.2 = true := by
  intro rs
  induction rs with
  | nil =>
    intro cur ctx out ctx' cur' h y hy
    simp only [processResults, Option.some.injEq, Prod.mk.injEq] at h
    obtain ⟨rfl, -⟩ := h
    simp at hy
  | cons r rs ih =>
    intro cur ctx out ctx' cur' h y hy
    cases r with
    | none =>
      simp only [processResults] at h
      exact ih _ _ _ _ _ h y hy
    | some it =>
      by_cases hn : it.is_new_item
      · simp only [processResults, hn, if_true, Option.bind_eq_some,
          Option.map_eq_some'] at h
        obtain ⟨recOut, -, pr, hin, h⟩ := h
        obtain ⟨h1, -⟩ : recOut.1.map tagSynth ++ pr.1 = out ∧
            (pr.2.1, pr.2.2) = (ctx', cur') := Prod.mk.injEq .. ▸ h
        subst h1
        rcases List.mem_append.mp hy with hy | hy
        · obtain ⟨z, -, rfl⟩ := List.mem_map.mp hy
          rfl
        · exact ih _ _ _ _ _ hin y hy
      · simp only [processResults, hn, if_false] at h
        exact ih _ _ _ _ _ h y hy

/-- Every yield emitted inside the step loop (before the terminal yield)
is tagged as synthesized. -/
theorem runSteps_out_true {σ : Type}
    (recurse : Item → PipeCtx σ → Option (List Yld × PipeCtx σ))
    (cfg : EngineConfig) :
    ∀ (ss : List (PipelineStep σ)) (cur : Option Item) (last : Str) (ctx : PipeCtx σ)
      (out : List Yld) (ctx' : PipeCtx σ) (cur' : Option Item) (last' : Str),
      runSteps recurse cfg ss cur last ctx = some (out, ctx', cur', last') →
      ∀ y ∈ out, y.2.2 = true := by
  intro ss
  induction ss with
  | nil =>
    intro cur last ctx out ctx' cur' last' h y hy
    simp only [runSteps, Option.some.injEq, Prod.mk.injEq] at h
    obtain ⟨rfl, -⟩ := h
    simp at hy
  | cons s rest ih =>
    intro cur last ctx out ctx' cur' last' h y hy
    cases cur with
    | none =>
      simp only [runSteps] at h
      exact ih _ _ _ _ _ _ _ h y hy
    | some it =>
      simp only [runSteps, Option.bind_eq_some, Option.map_eq_some'] at h
      obtain ⟨pr, hpr, rr, hrr, h⟩ := h
      obtain ⟨h1, -⟩ : pr.1 ++ rr.1 = out ∧ rr.2 = (ctx', cur', last') :=
        Prod.mk.injEq .. ▸ h
      subst h1
      rcases List.mem_append.mp hy with hy | hy
      · exact processResults_out_true recurse cfg _ _ _ _ _ _ _ _ _ hpr y hy
      · exact ih _ _ _ _ _ _ _ (by simpa using hrr) y hy

/-- The value `step_name` holds after iterating the loop over `post`,
having started at `last`: the name of the last step of `post`, or `last`
when `post` is empty. -/
def lastNameOf {σ : Type} (post : List (PipelineStep σ)) (last : Str) : Str :=
  match post with
  | [] => last
  | s :: rest => lastNameOf rest s.name

/-- For a nonempty list, `lastNameOf` is the name of the last step. -/
theorem lastNameOf_eq_getLast {σ : Type} :
    ∀ (post : List (PipelineStep σ)) (h : post ≠ []) (last : Str),
      lastNameOf post last = (post.getLast h).name := by
  intro post
  induction post with
  | nil => intro h; exact absurd rfl h
  | cons s rest ih =>
    intro _ last
    cases rest with
    | nil => rfl
    | cons s' rest' => simpa [lastNameOf] using ih (by simp) s.name

/-- Once the working item is absent, every remaining step is skipped
(no step runs, nothing is yielded) while `step_name` keeps being
reassigned, ending at the last configured step's name. -/
theorem runSteps_none_skip {σ : Type}
    (recurse : Item → PipeCtx σ → Option (List Yld × PipeCtx σ))
    (cfg : EngineConfig) :
    ∀ (post : List (PipelineStep σ)) (last : Str) (ctx : PipeCtx σ),
      runSteps recurse cfg post none last ctx =
        some ([], ctx, none, lastNameOf post last) := by
  intro post
  induction post with
  | nil => intro last ctx; rfl
  | cons s rest ih => intro last ctx; simpa [runSteps, lastNameOf] using ih s.name ctx

/-- The step loop splits over a decomposition of the step list. -/
theorem runSteps_append {σ : Type}
    (recurse : Item → PipeCtx σ → Option (List Yld × PipeCtx σ))
    (cfg : EngineConfig) :
    ∀ (pre post : List (PipelineStep σ)) (cur : Option Item) (last : Str)
      (ctx : PipeCtx σ),
      runSteps recurse cfg (pre ++ post) cur last ctx =
        (runSteps recurse cfg pre cur last ctx).bind fun rr =>
          (runSteps recurse cfg post rr.2.2.1 rr.2.2.2 rr.2.1).map fun rr₂ =>
            (rr.1 ++ rr₂.1, rr₂.2) := by
  intro pre
  induction pre with
  | nil => intro post cur last ctx; simp [runSteps]
  | cons s pre ih =>
    intro post cur last ctx
    cases cur with
    | none =>
      simp only [List.cons_append, runSteps]
      exact ih post none s.name ctx
    | some it =>
      simp only [List.cons_append, runSteps]
      cases hpr : processResults recurse cfg it.atId it.is_folderish
          (!(cfg.do_not_add_drop.contains s.name)) (s.run it ctx.meta).1 (some it)
          { ctx with meta := (s.run it ctx.meta).2 } with
      | none => simp
      | some pr =>
        simp only [Option.some_bind, List.append_eq]
        rw [ih]
        cases hrs : runSteps recurse cfg pre pr.2.2 s.name pr.2.1 with
        | none => simp
        | some rr =>
          simp only [Option.some_bind, Option.map_some']
          cases hrp : runSteps recurse cfg post rr.2.2.1 rr.2.2.2 rr.2.1 with
          | none => simp
          | some rr₂ => simp [List.append_assoc]

/-- Processing a result sequence that contains an item carrying the
new-item marker: the results before it are processed as usual, the marked
item is recursively processed (with the marker stripped) via `recurse`,
all its yields are re-yielded tagged as synthesized, and the remaining
results continue from the stripped item as working item. -/
theorem processResults_append_new {σ : Type}
    (recurse : Item → PipeCtx σ → Option (List Yld × PipeCtx σ))
    (cfg : EngineConfig) (iid : Str) (fol ad : Bool)
    (nitem : Item) (hmk : nitem.is_new_item = true) :
    ∀ (l₁ l₂ : List (Option Item)) (cur : Option Item) (ctx : PipeCtx σ),
      processResults recurse cfg iid fol ad (l₁ ++ some nitem :: l₂) cur ctx =
        (processResults recurse cfg iid fol ad l₁ cur ctx).bind fun pr₁ =>
          (recurse (popNew nitem) pr₁.2.1).bind fun recOut =>
            (processResults recurse cfg iid fol ad l₂ (some (popNew nitem))
                recOut.2).map
              fun pr₂ =>
                (pr₁.1 ++ recOut.1.map tagSynth ++ pr₂.1, pr₂.2.1, pr₂.2.2) := by
  intro l₁
  induction l₁ with
  | nil =>
    intro l₂ cur ctx
    simp only [List.nil_append, processResults, hmk, if_true, Option.some_bind]
  | cons r l₁ ih =>
    intro l₂ cur ctx
    cases r with
    | none =>
      simp only [List.cons_append, processResults]
      exact ih l₂ none _
    | some it =>
      by_cases hn : it.is_new_item
      · simp only [List.cons_append, processResults, hn, if_true]
        cases hrec : recurse (popNew it) ctx with
        | none => simp
        | some recOut =>
          simp only [Option.some_bind, List.append_eq]
          rw [ih]
          cases h₁ : processResults recurse cfg iid fol ad l₁ (some (popNew it))
              recOut.2 with
          | none => simp
          | some pr₁ =>
            simp only [Option.some_bind, Option.map_some', Option.map_bind,
              Function.comp]
            cases h₂ : recurse (popNew nitem) pr₁.2.1 with
            | none => simp
            | some recOut₂ =>
              simp only [Option.some_bind]
              cases h₃ : processResults recurse cfg iid fol ad l₂
                  (some (popNew nitem)) recOut₂.2 with
              | none => simp
              | some pr₂ => simp [List.append_assoc]
      · simp only [List.cons_append, processResults, hn, if_false]
        exact ih l₂ (some it) ctx

/-- C1: when a step in the configured list yields an item carrying the
new-item marker, the engine strips the marker (`popNew`), runs the item
through the **entire configured step list from the first step** — the
recursion is `pipelineRun cfg steps fuel`, over the full `steps`, not over
the remaining `rest` — and re-yields every result of that recursive run
tagged as synthesized (`tagSynth`), before continuing the outer loop with
the remaining results and the remaining steps. -/
theorem pipeline_fanout {σ : Type} (cfg : EngineConfig)
    (steps : List (PipelineStep σ)) (fuel : Nat)
    (s : PipelineStep σ) (rest : List (PipelineStep σ))
    (it nitem : Item) (l₁ l₂ : List (Option Item)) (m' : σ)
    (lastName : Str) (ctx : PipeCtx σ)
    (hmk : nitem.is_new_item = true)
    (hrun : s.run it ctx.meta = (l₁ ++ some nitem :: l₂, m')) :
    runSteps (pipelineRun cfg steps fuel) cfg (s :: rest) (some it) lastName ctx =
      (processResults (pipelineRun cfg steps fuel) cfg it.atId it.is_folderish
          (!(cfg.do_not_add_drop.contains s.name)) l₁ (some it)
          { ctx with meta := m' }).bind fun pr₁ =>
        (pipelineRun cfg steps fuel (popNew nitem) pr₁.2.1).bind fun recOut =>
          (processResults (pipelineRun cfg steps fuel) cfg it.atId it.is_folderish
              (!(cfg.do_not_add_drop.contains s.name)) l₂ (some (popNew nitem))
              recOut.2).bind fun pr₂ =>
            (runSteps (pipelineRun cfg steps fuel) cfg rest pr₂.2.2 s.name
                pr₂.2.1).map fun rr =>
              (pr₁.1 ++ recOut.1.map tagSynth ++ pr₂.1 ++ rr.1, rr.2) := by
  simp only [runSteps]
  rw [hrun]
  rw [processResults_append_new (pipelineRun cfg steps fuel) cfg it.atId
    it.is_folderish (!(cfg.do_not_add_drop.contains s.name)) nitem hmk l₁ l₂
    (some it) { ctx with meta := m' }]
  cases hP : processResults (pipelineRun cfg steps fuel) cfg it.atId it.is_folderish
      (!(cfg.do_not_add_drop.contains s.name)) l₁ (some it)
      { ctx with meta := m' } with
  | none => simp
  | some pr₁ =>
    simp only [Option.some_bind]
    cases hR : pipelineRun cfg steps fuel (popNew nitem) pr₁.2.1 with
    | none => simp
    | some recOut =>
      simp only [Option.some_bind]
      cases hP₂ : processResults (pipelineRun cfg steps fuel) cfg it.atId
          it.is_folderish (!(cfg.do_not_add_drop.contains s.name)) l₂
          (some (popNew nitem)) recOut.2 with
      | none => simp
      | some pr₂ =>
        cases hT : runSteps (pipelineRun cfg steps fuel) cfg rest pr₂.2.2 s.name
            pr₂.2.1 with
        | none => simp [hT]
        | some rr => simp [hT, List.append_assoc]

/-- C2: when an item has been dropped by the time `pre` of the configured
list `pre ++ post` has run (the working item is absent), the remaining
steps in `post` are skipped rather than removed from the loop, so the
invocation yields exactly one terminal non-synthesized result — absent,
and tagged with the name of the **last configured step of the whole
list**, not the name of the step that performed the drop.  Every earlier
yield, if any, is a synthesized one. -/
theorem pipeline_drop_terminal {σ : Type} (cfg : EngineConfig)
    (pre post : List (PipelineStep σ)) (fuel : Nat) (item : Item)
    (ctx ctx₀ : PipeCtx σ) (out₀ : List Yld) (l₀ : Str)
    (hpost : post ≠ [])
    (hpre : runSteps (pipelineRun cfg (pre ++ post) fuel) cfg pre (some item) []
      ctx = some (out₀, ctx₀, none, l₀)) :
    pipelineRun cfg (pre ++ post) (fuel + 1) item ctx =
      some (out₀ ++ [(none,
        ((pre ++ post).getLast (List.append_ne_nil_of_right_ne_nil pre hpost)).name,
        false)], ctx₀) ∧
    ∀ y ∈ out₀, y.2.2 = true := by
  constructor
  · have hne : (pre ++ post).isEmpty = false := by
      simp [List.isEmpty_eq_false]
      exact fun _ => hpost
    simp only [pipelineRun, hne, Bool.false_eq_true, if_false]
    rw [runSteps_append, hpre]
    simp only [Option.some_bind]
    rw [runSteps_none_skip]
    simp only [Option.map_some']
    rw [lastNameOf_eq_getLast post hpost l₀]
    have hgl : (pre ++ post).getLast
        (List.append_ne_nil_of_right_ne_nil pre hpost) = post.getLast hpost := by
      rw [List.getLast_append]
      simp [List.isEmpty_iff, hpost]
    rw [hgl]
    simp
  · exact runSteps_out_true _ _ _ _ _ _ _ _ _ _ hpre

/-!
### Concrete fixtures (the spec §8 fan-out scenario)

A two-step pipeline: step `synth` synthesizes a child for the root item,
step `tag` tags every item it sees.
-/

/-- The synthesized child, still carrying the new-item marker. -/
def newChild : Item :=
  { uid := str "child", atId := str "/child", atType := str "Doc",
    is_new_item := true }

/-- A step that fans out: on the root item it first yields a new marked
item, then the root itself; on any other item it passes through. -/
def synthStep : PipelineStep Unit where
  name := str "synth"
  run := fun it _ =>
    if it.uid = str "root" then ([some newChild, some it], ())
    else ([some it], ())

/-- A step that tags every item it sees via `review_state`. -/
def tagStep : PipelineStep Unit where
  name := str "tag"
  run := fun it _ => ([some { it with review_state := some (str "tagged") }], ())

/-- A step that unconditionally yields an absent result. -/
def dropStep : PipelineStep Unit where
  name := str "dropper"
  run := fun _ _ => ([none], ())

/-- The root source item. -/
def rootItem : Item := { uid := str "root", atId := str "/root", atType := str "Doc" }

/-- Shared state with trivial metadata and an empty drop set. -/
def emptyCtx : PipeCtx Unit := { meta := (), dropSet := ∅ }

/-- A configuration with no allowed prefixes and no drop exclusions. -/
def cfg0 : EngineConfig := { allowed := ∅, do_not_add_drop := [] }

/-- Decidable equality for the step-loop result tuple (registered by hand;
instance search does not chain it automatically). -/
instance : DecidableEq (List Yld × PipeCtx Unit × Option Item × Str) :=
  instDecidableEqProd

-- The spec §8 fan-out test, end to end: the synthesized child runs through
-- the entire step list from the first step, so it carries step `tag`'s tag,
-- and is yielded before the root's terminal non-synthesized result.
example :
    pipelineRun cfg0 [synthStep, tagStep] 2 rootItem emptyCtx =
      some ([(some { popNew newChild with review_state := some (str "tagged") },
               str "tag", true),
             (some { rootItem with review_state := some (str "tagged") },
               str "tag", false)], emptyCtx) := by decide

/-- C1 witness: the fan-out theorem applied to the concrete two-step
pipeline, fully evaluated. -/
theorem pipeline_fanout_witness :
    runSteps (pipelineRun cfg0 [synthStep, tagStep] 1) cfg0 [synthStep, tagStep]
        (some rootItem) (str "s") emptyCtx =
      some ([(some { popNew newChild with review_state := some (str "tagged") },
               str "tag", true)], emptyCtx,
            some { rootItem with review_state := some (str "tagged") },
            str "tag") :=
  (pipeline_fanout cfg0 [synthStep, tagStep] 1 synthStep [tagStep] rootItem
    newChild [] [some rootItem] () (str "s") emptyCtx (by decide) (by decide)).trans
    (by decide)

/-- C2 witness: a pipeline `[dropper, tag]` where the first step drops the
item — the run still yields exactly one terminal result: absent,
non-synthesized, and tagged `"tag"`, the name of the last configured step,
not `"dropper"`. -/
theorem pipeline_drop_terminal_witness :
    pipelineRun cfg0 [dropStep, tagStep] 2 rootItem emptyCtx =
      some ([((none : Option Item), str "tag", false)], emptyCtx) :=
  ((pipeline_drop_terminal cfg0 [dropStep] [tagStep] 1 rootItem emptyCtx emptyCtx
    [] (str "dropper") (List.cons_ne_nil _ _) rfl).1).trans (by decide)

/-!
## The run orchestrator (`pipeline/__init__.py` `pipeline`)

The orchestrator copies `state.total` and `state.processed` into the local
variables `total` and `processed` at the start (they are Python ints, so
the copies are by value and the fields are never written back), while
`exported`, `dropped`, `progress`, `seen`, `uids` and `path_transforms`
are aliases of the mutable objects inside the state, so their mutations
are visible in the state after the run.  Report rows are modelled only by
their count; file writes (`export_item`) are modelled by the `paths`
bookkeeping and the per-type/seen/uids updates they feed.
-/

/-- The progress-bar object (`t.PipelineProgress`): advance counts for the
two tasks, plus the `processed` task's denominator (set by
`progress.total("processed", total)`). -/
structure Progress where
  processed_count : Nat
  dropped_count : Nat
  processed_total : Nat
deriving DecidableEq, Repr

/-- `t.PipelineState`.  `exported` and `dropped` model the two
`defaultdict(int)` counters; `path_transforms` is modelled by the number
of report rows appended. -/
structure PipelineState where
  total : Nat
  processed : Nat
  exported : Str → Nat
  dropped : Str → Nat
  progress : Progress
  seen : Finset Str
  uids : List (Str × Str)
  path_transforms : Nat

/-- Bump a `defaultdict(int)` counter: `d[key] += 1`. -/
def bump (d : Str → Nat) (key : Str) : Str → Nat :=
  fun s => if s = key then d key + 1 else d s

/-- Python dict assignment `m[k] = v`: replace an existing binding or
append a new one (insertion order preserved). -/
def dictSet {α : Type} (m : List (Str × α)) (k : Str) (v : α) : List (Str × α) :=
  match m with
  | [] => [(k, v)]
  | (k', v') :: rest => if k' = k then (k, v) :: rest else (k', v') :: dictSet rest k v

/-- Python dict lookup `m.get(k)`. -/
def dictGet {α : Type} (m : List (Str × α)) (k : Str) : Option α :=
  match m with
  | [] => none
  | (k', v') :: rest => if k' = k then some v' else dictGet rest k

/-- The orchestrator's accumulating state: the `PipelineState` object plus
the local variables `total`, `processed` and `paths` of `pipeline`. -/
structure OrchAcc where
  state : PipelineState
  totalVar : Nat
  processedVar : Nat
  paths : List (Str × Str)

/-- `uids[item_uid] = item_uid`, then `uids[old_uid] = item_uid` when the
item carried a truthy `_UID` key. -/
def uidsUpd (m : List (Str × Str)) (item : Item) : List (Str × Str) :=
  match item.old_uid with
  | some ou =>
    if ou ≠ [] then dictSet (dictSet m item.uid item.uid) ou item.uid
    else dictSet m item.uid item.uid
  | none => dictSet m item.uid item.uid

/-- The body of `async for item, last_step, is_new in _pipeline(...)`:
bookkeeping for one yielded result.  Every result advances `processed`
(local and progress); a dropped result bumps the per-step drop counter
and appends a report row; a present result appends a report row, is
exported (a `paths` entry), bumps the per-type counter, records the UID
as seen and updates the UID remap — and, when tagged synthesized, first
increments the local `total` and pushes it as the new progress
denominator. -/
def orchYield (y : Yld) (acc : OrchAcc) : OrchAcc :=
  match y.1 with
  | none =>
    { acc with
      processedVar := acc.processedVar + 1,
      state := { acc.state with
        progress := { acc.state.progress with
          processed_count := acc.state.progress.processed_count + 1,
          dropped_count := acc.state.progress.dropped_count + 1 },
        dropped := bump acc.state.dropped y.2.1,
        path_transforms := acc.state.path_transforms + 1 } }
  | some item =>
    if y.2.2 then
      { acc with
        processedVar := acc.processedVar + 1,
        totalVar := acc.totalVar + 1,
        paths := acc.paths ++ [(item.atId, item.uid ++ str "/data.json")],
        state := { acc.state with
          progress := { acc.state.progress with
            processed_count := acc.state.progress.processed_count + 1,
            processed_total := acc.totalVar + 1 },
          path_transforms := acc.state.path_transforms + 1,
          exported := bump acc.state.exported item.atType,
          seen := insert item.uid acc.state.seen,
          uids := uidsUpd acc.state.uids item } }
    else
      { acc with
        processedVar := acc.processedVar + 1,
        paths := acc.paths ++ [(item.atId, item.uid ++ str "/data.json")],
        state := { acc.state with
          progress := { acc.state.progress with
            processed_count := acc.state.progress.processed_count + 1 },
          path_transforms := acc.state.path_transforms + 1,
          exported := bump acc.state.exported item.atType,
          seen := insert item.uid acc.state.seen,
          uids := uidsUpd acc.state.uids item } }

/-- Fold `orchYield` over the results of one item's pipeline. -/
def orchYields (ys : List Yld) (acc : OrchAcc) : OrchAcc :=
  ys.foldl (fun a y => orchYield y a) acc

/-- The orchestrator's `async for filename, raw_item in json_reader(...)`
loop.  Returns the final accumulator, the final shared context and — as a
pure observation for the statements below — the concatenation of all
pipeline yields of the run. -/
def pipelineItems {σ : Type} (cfg : EngineConfig) (steps : List (PipelineStep σ))
    (fuel : Nat) :
    List (Str × Item) → OrchAcc → PipeCtx σ →
      Option (OrchAcc × PipeCtx σ × List Yld)
  | [], acc, ctx => some (acc, ctx, [])
  | (_, raw) :: rest, acc, ctx =>
    (pipelineRun cfg steps fuel raw ctx).bind fun pr =>
      (pipelineItems cfg steps fuel rest (orchYields pr.1 acc) pr.2).map fun r =>
        (r.1, r.2.1, pr.1 ++ r.2.2)

/-- `pipeline`: the whole run. The locals `total` and `processed` start as
copies of the state's fields; `paths` starts empty. -/
def pipeline {σ : Type} (cfg : EngineConfig) (steps : List (PipelineStep σ))
    (fuel : Nat) (content : List (Str × Item)) (state : PipelineState)
    (ctx : PipeCtx σ) : Option (OrchAcc × PipeCtx σ × List Yld) :=
  pipelineItems cfg steps fuel content
    { state := state, totalVar := state.total, processedVar := state.processed,
      paths := [] } ctx

/-- The number of yields that are synthesized *and* present — only those
pass the `if not item: continue` guard and reach the `if is_new:` block
that grows the running total. -/
def nSynth (ys : List Yld) : Nat :=
  (ys.filter fun y => y.1.isSome && y.2.2).length

/-- A single yield contributes at most one to the synthesized count. -/
theorem nSynth_singleton_le (y : Yld) : nSynth [y] ≤ 1 := by
  cases hb : (y.1.isSome && y.2.2) <;> simp [nSynth, List.filter, hb]

/-- `nSynth` over a cons. -/
theorem nSynth_cons (y : Yld) (ys : List Yld) :
    nSynth (y :: ys) = nSynth [y] + nSynth ys := by
  cases hb : (y.1.isSome && y.2.2) <;>
    simp [nSynth, List.filter_cons, List.filter, hb, Nat.add_comm]

/-- `nSynth` over an append. -/
theorem nSynth_append (ys₁ ys₂ : List Yld) :
    nSynth (ys₁ ++ ys₂) = nSynth ys₁ + nSynth ys₂ := by
  simp [nSynth, List.filter_append]

/-- Per-yield bookkeeping facts: the local `processed` and the progress
advance count grow by one for every result; the local `total` (and the
progress denominator) grow exactly for present synthesized results; the
`PipelineState.total` and `PipelineState.processed` fields are never
touched. -/
theorem orchYield_spec (y : Yld) (acc : OrchAcc) :
    (orchYield y acc).processedVar = acc.processedVar + 1 ∧
    (orchYield y acc).totalVar = acc.totalVar + nSynth [y] ∧
    (orchYield y acc).state.total = acc.state.total ∧
    (orchYield y acc).state.processed = acc.state.processed ∧
    (orchYield y acc).state.progress.processed_count
      = acc.state.progress.processed_count + 1 ∧
    (orchYield y acc).state.progress.processed_total
      = (if 0 < nSynth [y] then acc.totalVar + 1
         else acc.state.progress.processed_total) := by
  obtain ⟨oi, last, isNew⟩ := y
  cases oi with
  | none => simp [orchYield, nSynth, List.filter]
  | some item =>
    cases isNew with
    | false => simp [orchYield, nSynth, List.filter]
    | true => simp [orchYield, nSynth, List.filter]

/-- `orchYields` accumulates the per-yield facts over one item's run. -/
theorem orchYields_spec :
    ∀ (ys : List Yld) (acc : OrchAcc),
      (orchYields ys acc).processedVar = acc.processedVar + ys.length ∧
      (orchYields ys acc).totalVar = acc.totalVar + nSynth ys ∧
      (orchYields ys acc).state.total = acc.state.total ∧
      (orchYields ys acc).state.processed = acc.state.processed ∧
      (orchYields ys acc).state.progress.processed_count
        = acc.state.progress.processed_count + ys.length ∧
      (orchYields ys acc).state.progress.processed_total
        = (if nSynth ys = 0 then acc.state.progress.processed_total
           else (orchYields ys acc).totalVar) := by
  intro ys
  induction ys with
  | nil => intro acc; simp [orchYields, nSynth]
  | cons y ys ih =>
    intro acc
    obtain ⟨g1, g2, g3, g4, g5, g6⟩ := orchYield_spec y acc
    obtain ⟨h1, h2, h3, h4, h5, h6⟩ := ih (orchYield y acc)
    have hfold : orchYields (y :: ys) acc = orchYields ys (orchYield y acc) := rfl
    have hone := nSynth_singleton_le y
    rw [hfold, nSynth_cons]
    refine ⟨?_, ?_, ?_, ?_, ?_, ?_⟩
    · rw [h1, g1]; simp [List.length_cons]; omega
    · rw [h2, g2]; omega
    · rw [h3, g3]
    · rw [h4, g4]
    · rw [h5, g5]; simp [List.length_cons]; omega
    · rw [h6, g6, h2, g2]
      split_ifs <;> omega

/-- Accumulation of the per-item facts over the whole content loop. -/
theorem pipelineItems_spec {σ : Type} (cfg : EngineConfig)
    (steps : List (PipelineStep σ)) (fuel : Nat) :
    ∀ (content : List (Str × Item)) (acc : OrchAcc) (ctx : PipeCtx σ)
      (r : OrchAcc × PipeCtx σ × List Yld),
      pipelineItems cfg steps fuel content acc ctx = some r →
      r.1.processedVar = acc.processedVar + r.2.2.length ∧
      r.1.totalVar = acc.totalVar + nSynth r.2.2 ∧
      r.1.state.total = acc.state.total ∧
      r.1.state.processed = acc.state.processed ∧
      r.1.state.progress.processed_count
        = acc.state.progress.processed_count + r.2.2.length ∧
      r.1.state.progress.processed_total
        = (if nSynth r.2.2 = 0 then acc.state.progress.processed_total
           else r.1.totalVar) := by
  intro content
  induction content with
  | nil =>
    intro acc ctx r h
    obtain ⟨rfl⟩ : (acc, ctx, ([] : List Yld)) = r := by
      simpa [pipelineItems] using h
    simp [nSynth]
  | cons entry rest ih =>
    intro acc ctx r h
    obtain ⟨fname, raw⟩ := entry
    simp only [pipelineItems, Option.bind_eq_some, Option.map_eq_some'] at h
    obtain ⟨pr, -, r', hrec, rfl⟩ := h
    obtain ⟨i1, i2, i3, i4, i5, i6⟩ := ih (orchYields pr.1 acc) pr.2 r' hrec
    obtain ⟨y1, y2, y3, y4, y5, y6⟩ := orchYields_spec pr.1 acc
    refine ⟨?_, ?_, ?_, ?_, ?_, ?_⟩ <;>
      simp only [List.length_append, nSynth_append]
    · rw [i1, y1]; omega
    · rw [i2, y2]; omega
    · rw [i3, y3]
    · rw [i4, y4]
    · rw [i5, y5]; omega
    · rw [i6, y6, i2, y2]
      split_ifs <;> omega

/-- C6 (amended): for every successful run, the orchestrator's running
counters behave as the claim describes — the local `total` variable grows
by one for every synthesized item that survives (it also seeds the
progress denominator), and the local `processed` variable counts every
pipeline result individually, dropped, surviving and synthesized alike.
However these are local variables of `pipeline` that are never written
back: the `PipelineState.total` and `PipelineState.processed` fields keep
their initial values.  (A synthesized item that is itself dropped is
skipped by `if not item: continue` before the `is_new` block, so it does
not grow the total.) -/
theorem pipeline_counters {σ : Type} (cfg : EngineConfig)
    (steps : List (PipelineStep σ)) (fuel : Nat) (content : List (Str × Item))
    (state : PipelineState) (ctx : PipeCtx σ) (r : OrchAcc × PipeCtx σ × List Yld)
    (h : pipeline cfg steps fuel content state ctx = some r) :
    r.1.processedVar = state.processed + r.2.2.length ∧
    r.1.totalVar = state.total + nSynth r.2.2 ∧
    r.1.state.total = state.total ∧
    r.1.state.processed = state.processed ∧
    r.1.state.progress.processed_count
      = state.progress.processed_count + r.2.2.length ∧
    r.1.state.progress.processed_total
      = (if nSynth r.2.2 = 0 then state.progress.processed_total
         else r.1.totalVar) :=
  pipelineItems_spec cfg steps fuel content _ ctx r h

/-- A second plain source item for the concrete run. -/
def otherItem : Item := { uid := str "o", atId := str "/o", atType := str "Doc" }

/-- A concrete initial run state: two source files, nothing processed. -/
def cexState : PipelineState :=
  { total := 2, processed := 0, exported := fun _ => 0, dropped := fun _ => 0,
    progress := { processed_count := 0, dropped_count := 0, processed_total := 2 },
    seen := ∅, uids := [], path_transforms := 0 }

/-- The two source content files of the concrete run. -/
def cexContent : List (Str × Item) :=
  [(str "1.json", rootItem), (str "2.json", otherItem)]

/-- C6 counterexample: a run of two source items in which one step
synthesizes one surviving extra item produces three results
(`nSynth = 1`, three yields), yet the run-state fields stay at
`total = 2` and `processed = 0` — the claim's reading (state total 3,
state processed 3) is false; only the orchestrator's local variables
reach 3 and 3. -/
theorem pipeline_counters_cex :
    (pipeline cfg0 [synthStep, tagStep] 2 cexContent cexState emptyCtx).map
      (fun r => (nSynth r.2.2, r.2.2.length, r.1.state.total, r.1.state.processed,
                 r.1.totalVar, r.1.processedVar))
      = some (1, 3, 2, 0, 3, 3) := by decide

/-- C6 witness: the amended counter theorem applied to the concrete run. -/
theorem pipeline_counters_witness :
    (pipeline cfg0 [synthStep, tagStep] 2 cexContent cexState emptyCtx).map
      (fun r => (r.1.totalVar, r.1.processedVar, r.1.state.total,
                 r.1.state.processed))
      = some (3, 3, 2, 0) := by
  have hsome : (pipeline cfg0 [synthStep, tagStep] 2 cexContent cexState
      emptyCtx).isSome = true := by decide
  have hr : pipeline cfg0 [synthStep, tagStep] 2 cexContent cexState emptyCtx
      = some ((pipeline cfg0 [synthStep, tagStep] 2 cexContent cexState
          emptyCtx).get hsome) := (Option.some_get hsome).symm
  obtain ⟨h1, h2, h3, h4, -, -⟩ :=
    pipeline_counters cfg0 [synthStep, tagStep] 2 cexContent cexState emptyCtx _ hr
  rw [hr, Option.map_some', h1, h2, h3, h4]
  rfl

/-!
## Metadata export (`utils/exportimport/__init__.py`)
-/

/-- One entry of the source `relations` list:
`{"from_uuid": ..., "relationship": ..., "to_uuid": ...}` (the UID keys
may be missing, hence `Option`). -/
structure Relation where
  from_uuid : Option Str
  relationship : Str
  to_uuid : Option Str
deriving DecidableEq, Repr

/-- One entry written to `relations.json`. -/
structure RelationOut where
  from_attribute : Str
  from_uuid : Str
  to_uuid : Str
deriving DecidableEq, Repr

/-- `prepare_relations_data`: remap both endpoints through `state.uids`,
keep the relation only when both remapped endpoints are truthy and
distinct.  The output entry is built exactly as in the source — including
its `"to_uuid": from_uuid` right-hand side. -/
def prepare_relations_data (relations : List Relation)
    (uids : List (Str × Str)) : List RelationOut :=
  relations.filterMap fun item =>
    match item.from_uuid.bind (dictGet uids), item.to_uuid.bind (dictGet uids) with
    | some f, some t =>
      if f ≠ [] ∧ t ≠ [] ∧ f ≠ t then
        some { from_attribute := item.relationship, from_uuid := f, to_uuid := f }
      else none
    | _, _ => none

/-- C3 (code bug exhibited): for a relation whose endpoints remap to the
distinct retained UIDs `A` and `B`, the exported pair carries
`to_uuid = A` — the remapped *from* endpoint — instead of `B`,
contradicting the claim, the spec, and the function's own docstring
example (which shows distinct `from_uuid`/`to_uuid`). -/
theorem prepare_relations_data_to_uuid_bug :
    prepare_relations_data
      [{ from_uuid := some (str "a"), relationship := str "relatedItems",
         to_uuid := some (str "b") }]
      [(str "a", str "A"), (str "b", str "B")]
      = [{ from_attribute := str "relatedItems", from_uuid := str "A",
           to_uuid := str "A" }] := by decide

/-- C10: a relation whose two endpoints remap to the same surviving UID
is silently omitted from the exported relations data, even though both
endpoints were retained. -/
theorem prepare_relations_data_self_dropped (uids : List (Str × Str))
    (l₁ l₂ : List Relation) (r : Relation) (u : Str)
    (hf : r.from_uuid.bind (dictGet uids) = some u)
    (ht : r.to_uuid.bind (dictGet uids) = some u) :
    prepare_relations_data (l₁ ++ r :: l₂) uids =
      prepare_relations_data l₁ uids ++ prepare_relations_data l₂ uids := by
  unfold prepare_relations_data
  rw [List.filterMap_append, List.filterMap_cons, hf, ht]
  simp

/-- C10 witness: a relation `x → y` whose endpoints both remap to `A` is
dropped. -/
theorem prepare_relations_data_self_dropped_witness :
    prepare_relations_data
      [{ from_uuid := some (str "x"), relationship := str "rel",
         to_uuid := some (str "y") }]
      [(str "x", str "A"), (str "y", str "A")] = [] :=
  (prepare_relations_data_self_dropped [(str "x", str "A"), (str "y", str "A")]
    [] []
    { from_uuid := some (str "x"), relationship := str "rel",
      to_uuid := some (str "y") }
    (str "A") (by decide) (by decide)).trans rfl

/-- The metadata maps handled by `prepare_metadata_file` (keyed by UID;
the value type is abstract).  `path`, `__version__`, the `_blob_files_` /
`_data_files_` bookkeeping and the debug dump are not modelled. -/
structure MetadataInfo (α : Type) where
  default_page : List (Str × α)
  local_permissions : List (Str × α)
  local_roles : List (Str × α)
  ordering : List (Str × α)
  relations : List Relation

/-- `prepare_metadata_file` (its final `__metadata__.json` payload):
`default_page` is emptied first unless `pb_config.default_pages.keep` is
set; then `default_page`, `ordering` and `local_roles` are each filtered
down to the keys present in `state.uids`; `relations` is reset to `[]`
(relations are written separately by `prepare_relations_data`). -/
def prepare_metadata_file {α : Type} (keep_default_pages : Bool)
    (md : MetadataInfo α) (uids : List (Str × Str)) : MetadataInfo α :=
  let dp := if keep_default_pages then md.default_page else []
  { default_page := dp.filter fun p => (dictGet uids p.1).isSome,
    local_permissions := md.local_permissions,
    local_roles := md.local_roles.filter fun p => (dictGet uids p.1).isSome,
    ordering := md.ordering.filter fun p => (dictGet uids p.1).isSome,
    relations := [] }

/-- A dict lookup succeeds exactly for the dict's keys. -/
theorem dictGet_isSome_iff {α : Type} :
    ∀ (m : List (Str × α)) (k : Str),
      (dictGet m k).isSome = true ↔ k ∈ m.map Prod.fst := by
  intro m
  induction m with
  | nil => intro k; simp [dictGet]
  | cons p rest ih =>
    intro k
    obtain ⟨k', v'⟩ := p
    show (if k' = k then some v' else dictGet rest k).isSome = true ↔ _
    rw [List.map_cons, List.mem_cons]
    by_cases h : k' = k
    · rw [if_pos h]
      exact iff_of_true rfl (Or.inl h.symm)
    · rw [if_neg h, ih k]
      exact ⟨Or.inr, fun hh => hh.resolve_left fun e => h e.symm⟩

/-- C5 counterexample: with `default_pages.keep` unset, a `default_page`
map whose key `A` *is* retained is nevertheless exported empty — the
exported map is not the restriction of the source-loaded map. -/
theorem prepare_metadata_file_cex :
    (prepare_metadata_file false
      { default_page := [(str "A", str "X")], local_permissions := [],
        local_roles := [], ordering := [], relations := [] }
      [(str "A", str "A")]).default_page = [] ∧
    ([(str "A", str "X")].filter
        fun p => decide (p.1 ∈ ([(str "A", str "A")].map Prod.fst)))
      = [(str "A", str "X")] := by decide

/-- C5 (amended): the exported `ordering` and `local_roles` maps are
exactly the restrictions of the source-loaded maps to the keys present in
the retained-UID map; `default_page` is that restriction when
`default_pages.keep` is configured, and empty otherwise. -/
theorem prepare_metadata_file_filter {α : Type} (keep : Bool)
    (md : MetadataInfo α) (uids : List (Str × Str)) :
    ((prepare_metadata_file keep md uids).ordering
      = md.ordering.filter fun p => decide (p.1 ∈ uids.map Prod.fst)) ∧
    ((prepare_metadata_file keep md uids).local_roles
      = md.local_roles.filter fun p => decide (p.1 ∈ uids.map Prod.fst)) ∧
    (keep = true → (prepare_metadata_file keep md uids).default_page
      = md.default_page.filter fun p => decide (p.1 ∈ uids.map Prod.fst)) ∧
    (keep = false → (prepare_metadata_file keep md uids).default_page = []) := by
  have hpred : ∀ (l : List (Str × α)),
      (l.filter fun p => (dictGet uids p.1).isSome)
        = l.filter fun p => decide (p.1 ∈ uids.map Prod.fst) := by
    intro l
    refine List.filter_congr fun p _ => ?_
    by_cases hm : p.1 ∈ uids.map Prod.fst
    · simp [hm, (dictGet_isSome_iff uids p.1).mpr hm]
    · have hs : (dictGet uids p.1).isSome = false := by
        cases hq : (dictGet uids p.1).isSome
        · rfl
        · exact absurd ((dictGet_isSome_iff uids p.1).mp hq) hm
      simp [hm, hs]
  refine ⟨hpred md.ordering, hpred md.local_roles, fun hk => ?_, fun hk => ?_⟩
  · subst hk
    simpa [prepare_metadata_file] using hpred md.default_page
  · subst hk
    simp [prepare_metadata_file]

/-- C5 witness: the claim's own example — `uid_remap` keys `{A, B}`, an
ordering map with keys `{A, B, C}`: the exported ordering map keeps
exactly the `A` and `B` entries (and with `keep` set, `default_page`
likewise). -/
theorem prepare_metadata_file_filter_witness :
    (prepare_metadata_file true
      { default_page := [(str "A", str "X")], local_permissions := [],
        local_roles := [],
        ordering := [(str "A", str "1"), (str "B", str "2"), (str "C", str "3")],
        relations := [] }
      [(str "A", str "A"), (str "B", str "B")]).ordering
      = [(str "A", str "1"), (str "B", str "2")] ∧
    (prepare_metadata_file true
      { default_page := [(str "A", str "X")], local_permissions := [],
        local_roles := [],
        ordering := [(str "A", str "1"), (str "B", str "2"), (str "C", str "3")],
        relations := [] }
      [(str "A", str "A"), (str "B", str "B")]).default_page
      = [(str "A", str "X")] :=
  ⟨((prepare_metadata_file_filter true
      { default_page := [(str "A", str "X")], local_permissions := [],
        local_roles := [],
        ordering := [(str "A", str "1"), (str "B", str "2"), (str "C", str "3")],
        relations := [] }
      [(str "A", str "A"), (str "B", str "B")]).1).trans (by decide),
   ((prepare_metadata_file_filter true
      { default_page := [(str "A", str "X")], local_permissions := [],
        local_roles := [],
        ordering := [(str "A", str "1"), (str "B", str "2"), (str "C", str "3")],
        relations := [] }
      [(str "A", str "A"), (str "B", str "B")]).2.2.1 rfl).trans (by decide)⟩

/-!
## Step resolution (`utils/__init__.py` `load_step` / `check_steps`)

The import machinery is abstracted as an environment mapping module names
to modules, and modules to the truthiness of their attributes (`getattr`
plus the `if not func` check).  `@cache` is semantically transparent for
a pure resolution.
-/

/-- Module environment: module name ↦ (attribute name ↦ truthiness). -/
abbrev ModuleEnv : Type := List (Str × List (Str × Bool))

/-- The Python exceptions `load_step` can raise: `ValueError` (from
`name.rsplit(".", 1)` unpacking a dotless name, or `import_module` on an
empty module name) and `RuntimeError` (the wrapped
`Function {name} not available`). -/
inductive PyErr where
  | valueError
  | runtimeError
deriving DecidableEq, Repr

/-- `name.rsplit(".", 1)` bound to a pair: everything before the last dot
and everything after it; `none` when the name has no dot (Python raises
`ValueError: not enough values to unpack`). -/
def rsplitDot (name : Str) : Option (Str × Str) :=
  let parts := pySplit '.' name
  match parts with
  | [] => none
  | [_] => none
  | _ => some (pyJoin '.' parts.dropLast, parts.getLastD [])

/-- `load_step`: split the dotted name, import the module (a
`ModuleNotFoundError` is re-raised as `RuntimeError`; an empty module
name makes `import_module` raise `ValueError`, which is not caught), then
fetch the attribute; a missing or falsy attribute is a `RuntimeError`. -/
def load_step (env : ModuleEnv) (name : Str) : Except PyErr Unit :=
  match rsplitDot name with
  | none => .error .valueError
  | some (mod_name, func_name) =>
    if mod_name = [] then .error .valueError
    else
      match dictGet env mod_name with
      | none => .error .runtimeError
      | some mod =>
        match dictGet mod func_name with
        | some true => .ok ()
        | _ => .error .runtimeError

/-- `check_steps`: per name, try `load_step` and record `(name, ok)`;
only `RuntimeError` is caught — any `ValueError` escapes and aborts the
whole call. -/
def check_steps (env : ModuleEnv) : List Str → Except PyErr (List (Str × Bool))
  | [] => .ok []
  | n :: rest =>
    match load_step env n with
    | .ok _ => (check_steps env rest).map (fun l => (n, true) :: l)
    | .error .runtimeError => (check_steps env rest).map (fun l => (n, false) :: l)
    | .error .valueError => .error .valueError

/-- Decidable equality for `Except` results (not provided by the core
library). -/
instance {ε α : Type} [DecidableEq ε] [DecidableEq α] :
    DecidableEq (Except ε α) := fun a b =>
  match a, b with
  | .ok x, .ok y =>
    if h : x = y then isTrue (by rw [h]) else isFalse (by simp [h])
  | .error e, .error e' =>
    if h : e = e' then isTrue (by rw [h]) else isFalse (by simp [h])
  | .ok _, .error _ => isFalse (by simp)
  | .error _, .ok _ => isFalse (by simp)

/-- C8 counterexample: a step list containing a name with no dot makes
`check_steps` raise (`ValueError` from `rsplit` unpacking) instead of
returning a `(name, ok)` list — even when every other name is fine. -/
theorem check_steps_raises_on_dotless :
    check_steps [(str "m", [(str "f", true)])] [str "m.f", str "nodot"]
      = .error .valueError := by decide

/-- C8 (amended): as long as every name avoids the `ValueError` paths of
`load_step` (a dotless name, or an empty module part), the bulk check
never raises and returns exactly one `(name, ok)` pair per input name, in
input order, with `ok` true exactly when the name resolves (the module
imports and exposes a truthy attribute). -/
theorem check_steps_spec (env : ModuleEnv) :
    ∀ (names : List Str),
      (∀ n ∈ names, load_step env n ≠ .error .valueError) →
      check_steps env names
        = .ok (names.map fun n =>
            (n, match load_step env n with | .ok _ => true | .error _ => false)) := by
  intro names
  induction names with
  | nil => intro _; rfl
  | cons n rest ih =>
    intro h
    have hrest := ih fun m hm => h m (List.mem_cons_of_mem n hm)
    cases hl : load_step env n with
    | ok u => simp [check_steps, hl, hrest, List.map_cons, Except.map]
    | error e =>
      cases e with
      | valueError => exact absurd hl (h n (List.mem_cons_self n rest))
      | runtimeError => simp [check_steps, hl, hrest, List.map_cons, Except.map]

/-- C8 witness: a resolvable step, a falsy attribute and a missing module
produce `[(.., true), (.., false), (.., false)]` without raising. -/
theorem check_steps_spec_witness :
    check_steps [(str "m", [(str "f", true), (str "g", false)])]
        [str "m.f", str "m.g", str "x.h"]
      = .ok [(str "m.f", true), (str "m.g", false), (str "x.h", false)] :=
  (check_steps_spec [(str "m", [(str "f", true), (str "g", false)])]
    [str "m.f", str "m.g", str "x.h"] (by decide)).trans (by decide)

/-!
## The ID/path normalization step (`steps/ids.py`)
-/

/-- Python `s.replace(pat, rpl)` scanning left to right over at most
`fuel` characters (each iteration consumes at least one, so `s.length`
fuel suffices). -/
def pyReplaceAux (pat rpl : Str) : Nat → Str → Str
  | 0, s => s
  | _ + 1, [] => []
  | fuel + 1, c :: cs =>
    if pat ≠ [] ∧ pat.isPrefixOf (c :: cs) then
      rpl ++ pyReplaceAux pat rpl fuel ((c :: cs).drop pat.length)
    else
      c :: pyReplaceAux pat rpl fuel cs

/-- Python `s.replace(pat, rpl)`: all non-overlapping occurrences, left
to right; an empty pattern interleaves `rpl` around every character. -/
def pyReplace (pat rpl s : Str) : Str :=
  if pat = [] then rpl ++ s.foldr (fun c acc => c :: rpl ++ acc) []
  else pyReplaceAux pat rpl s.length s

/-- Python `pat in s` (contiguous substring test). -/
def containsSub : Str → Str → Bool
  | s, pat =>
    match s with
    | [] => pat.isPrefixOf []
    | _ :: cs => pat.isPrefixOf s || containsSub cs pat

/-- The numeric value of a hexadecimal digit. -/
def hexVal (c : Char) : Option Nat :=
  if '0' ≤ c ∧ c ≤ '9' then some (c.toNat - 48)
  else if 'A' ≤ c ∧ c ≤ 'F' then some (c.toNat - 55)
  else if 'a' ≤ c ∧ c ≤ 'f' then some (c.toNat - 87)
  else none

/-- `urllib.parse.unquote`, modelled at the single-byte level: each valid
`%XX` escape decodes to the character with that code, malformed escapes
stay literal (multi-byte UTF-8 sequences are not modelled; the paths
involved here are ASCII). -/
def unquoteAux : Nat → Str → Str
  | 0, s => s
  | _ + 1, [] => []
  | fuel + 1, c :: rest =>
    if c = '%' then
      match rest with
      | c₁ :: c₂ :: rest' =>
        match hexVal c₁, hexVal c₂ with
        | some h, some l => Char.ofNat (16 * h + l) :: unquoteAux fuel rest'
        | _, _ => c :: unquoteAux fuel rest
      | _ => c :: unquoteAux fuel rest
    else c :: unquoteAux fuel rest

/-- `unquote` itself: scan with enough fuel for the whole string. -/
def unquote (s : Str) : Str := unquoteAux s.length s

/-- The character class `[ _-]` of the single regex in `PATTERNS`. -/
def isSepCh (c : Char) : Bool := c == ' ' || c == '_' || c == '-'

/-- `fix_short_id`: match `^[ _-]*(?P<path>[^ _-]*)[ _-]*$` against the
id — the match succeeds exactly when stripping `[ _-]` characters from
both ends leaves a core free of them, in which case the id becomes that
core — then replace any remaining spaces by underscores. -/
def fix_short_id (id_ : Str) : Str :=
  let core := ((id_.dropWhile isSepCh).reverse.dropWhile isSepCh).reverse
  let id₁ := if core.all (fun c => !(isSepCh c)) then core else id_
  if id₁.contains ' ' then pyReplace [' '] ['_'] id₁ else id₁

/-- The two fields of an item that `process_ids` writes (`@id` and `id`);
all other keys pass through unchanged. -/
structure IdsItem where
  atId : Str
  id : Str
deriving DecidableEq, Repr

/-- The prelude of `process_ids`: URL-unquote the space-normalized `@id`
and apply each cleanup substitution whose source occurs in the path. -/
def pathPrep (cleanup : List (Str × Str)) (s : Str) : Str :=
  cleanup.foldl
    (fun p sr => if containsSub p sr.1 then pyReplace sr.1 sr.2 p else p)
    (unquote (pyReplace [' '] ['_'] s))

/-- The rest of `process_ids`: split the prepared path on `/`, fix the
short id of the last part, rebuild.  (`if parts:` in the source is
always taken since `rsplit` never returns an empty list.) -/
def process_ids (cleanup : List (Str × Str)) (item : IdsItem) : IdsItem :=
  let path := pathPrep cleanup item.atId
  let parts := pySplit '/' path
  if parts.isEmpty then item
  else
    let last := fix_short_id (parts.getLastD [])
    { atId := pyJoin '/' (parts.dropLast ++ [last]), id := last }

-- The spec §8 end-to-end scenario: `{"@id": "/Plone/ foo", "id": " foo"}`
-- with the `/Plone` prefix configured as a cleanup source becomes
-- `{"@id": "/foo", "id": "foo"}`.
example :
    process_ids [(str "/Plone", str "")] { atId := str "/Plone/ foo", id := str " foo" }
      = { atId := str "/foo", id := str "foo" } := by decide

/-- C9 counterexample: with the configured cleanup mapping `a → aa`, one
application maps `@id = "/a"` to `"/aa"`, but a second application maps
it on to `"/aaaa"` — the step is not idempotent for every configured
path-cleanup mapping. -/
theorem process_ids_not_idempotent :
    process_ids [(str "a", str "aa")]
        (process_ids [(str "a", str "aa")] { atId := str "/a", id := str "a" })
      ≠ process_ids [(str "a", str "aa")] { atId := str "/a", id := str "a" } ∧
    process_ids [(str "a", str "aa")] { atId := str "/a", id := str "a" }
      = { atId := str "/aa", id := str "aa" } ∧
    process_ids [(str "a", str "aa")]
        (process_ids [(str "a", str "aa")] { atId := str "/a", id := str "a" })
      = { atId := str "/aaaa", id := str "aaaa" } := by decide

/-- Replacing a single character by a single character is a character map. -/
theorem pyReplace_single (a b : Char) :
    ∀ (s : Str), pyReplace [a] [b] s = s.map fun c => if c = a then b else c := by
  have aux : ∀ (fuel : Nat) (s : Str), s.length ≤ fuel →
      pyReplaceAux [a] [b] fuel s = s.map fun c => if c = a then b else c := by
    intro fuel
    induction fuel with
    | zero =>
      intro s hs
      rw [List.length_eq_zero.mp (Nat.le_zero.mp hs)]
      rfl
    | succ fuel ih =>
      intro s hs
      cases s with
      | nil => rfl
      | cons c cs =>
        by_cases hc : c = a
        · subst hc
          have hpre : ([c] : Str).isPrefixOf (c :: cs) = true := by
            simp [List.isPrefixOf]
          simp only [pyReplaceAux, List.map_cons, if_pos rfl]
          rw [if_pos ⟨by simp, hpre⟩]
          simp only [List.length_singleton, List.drop_succ_cons, List.drop_zero,
            List.singleton_append, if_true]
          rw [ih cs (by simpa using Nat.le_of_succ_le_succ hs)]
        · have hpre : ([a] : Str).isPrefixOf (c :: cs) = false := by
            simp [List.isPrefixOf]
            intro h
            exact absurd h.symm hc
          simp only [pyReplaceAux, List.map_cons, if_neg hc]
          rw [if_neg (by simp [hpre])]
          rw [ih cs (by simpa using Nat.le_of_succ_le_succ hs)]
  intro s
  rw [pyReplace, if_neg (by simp)]
  exact aux s.length s (Nat.le_refl _)

/-- Mapping the space-to-underscore substitution over a space-free string
is the identity. -/
theorem map_subst_id (a b : Char) (s : Str) (h : a ∉ s) :
    (s.map fun c => if c = a then b else c) = s := by
  have hcg : ∀ c ∈ s, (if c = a then b else c) = id c := by
    intro c hc
    have hne : ¬ c = a := fun he => h (he ▸ hc)
    simp [hne]
  rw [List.map_congr_left hcg, List.map_id]

/-- The substituted string never contains the replaced character (when
the replacement differs from it). -/
theorem not_mem_map_subst (a b : Char) (hab : b ≠ a) (s : Str) :
    a ∉ s.map fun c => if c = a then b else c := by
  intro hmem
  obtain ⟨c, -, hc⟩ := List.mem_map.mp hmem
  by_cases h : c = a
  · rw [if_pos h] at hc; exact hab hc
  · rw [if_neg h] at hc; exact h hc

/-- `unquote` is the identity on strings without a percent escape. -/
theorem unquote_no_percent (s : Str) (h : '%' ∉ s) : unquote s = s := by
  have aux : ∀ (fuel : Nat) (t : Str), '%' ∉ t → unquoteAux fuel t = t := by
    intro fuel
    induction fuel with
    | zero => intro t _; rfl
    | succ fuel ih =>
      intro t ht
      cases t with
      | nil => rfl
      | cons c cs =>
        have hc : ¬ c = '%' := fun he => ht (he ▸ List.mem_cons_self c cs)
        simp only [unquoteAux, if_neg hc]
        rw [ih cs fun hm => ht (List.mem_cons_of_mem c hm)]
  exact aux s.length s h

/-- A cleanup fold in which no source occurs in the path is the identity. -/
theorem cleanup_fold_id (cleanup : List (Str × Str)) :
    ∀ (p : Str), (∀ sr ∈ cleanup, containsSub p sr.1 = false) →
      cleanup.foldl
        (fun p sr => if containsSub p sr.1 then pyReplace sr.1 sr.2 p else p) p
        = p := by
  induction cleanup with
  | nil => intro p _; rfl
  | cons sr rest ih =>
    intro p h
    have h₀ : containsSub p sr.1 = false := h sr (List.mem_cons_self sr rest)
    simp only [List.foldl_cons, h₀, Bool.false_eq_true, if_false]
    exact ih p fun s hs => h s (List.mem_cons_of_mem sr hs)

/-- `str.split` never returns an empty list. -/
theorem pySplit_ne_nil (sep : Char) : ∀ (s : Str), pySplit sep s ≠ [] := by
  intro s
  induction s with
  | nil => simp [pySplit]
  | cons c cs ih =>
    simp only [pySplit]
    by_cases hc : c = sep
    · simp [hc]
    · simp only [hc, if_false]
      cases hsp : pySplit sep cs with
      | nil => exact absurd hsp ih
      | cons r rs => simp

/-- No piece returned by `str.split` contains the separator. -/
theorem pySplit_sep_not_mem (sep : Char) :
    ∀ (s : Str) (x : Str), x ∈ pySplit sep s → sep ∉ x := by
  intro s
  induction s with
  | nil =>
    intro x hx
    simp only [pySplit, List.mem_singleton] at hx
    simp [hx]
  | cons c cs ih =>
    intro x hx
    simp only [pySplit] at hx
    by_cases hc : c = sep
    · rw [if_pos hc] at hx
      rcases List.mem_cons.mp hx with rfl | hx
      · simp
      · exact ih x hx
    · rw [if_neg hc] at hx
      cases hsp : pySplit sep cs with
      | nil => exact absurd hsp (pySplit_ne_nil sep cs)
      | cons r rs =>
        rw [hsp] at hx
        rcases List.mem_cons.mp hx with rfl | hx
        · intro hmem
          rcases List.mem_cons.mp hmem with he | hmem
          · exact hc he.symm
          · exact ih r (hsp ▸ List.mem_cons_self r rs) hmem
        · exact ih x (hsp ▸ List.mem_cons_of_mem r hx)

/-- Joining the pieces of a split reproduces the original string. -/
theorem pyJoin_pySplit (sep : Char) :
    ∀ (s : Str), pyJoin sep (pySplit sep s) = s := by
  intro s
  induction s with
  | nil => rfl
  | cons c cs ih =>
    simp only [pySplit]
    by_cases hc : c = sep
    · subst hc
      rw [if_pos rfl]
      cases hsp : pySplit c cs with
      | nil => exact absurd hsp (pySplit_ne_nil c cs)
      | cons r rs =>
        show ([] : Str) ++ c :: pyJoin c (r :: rs) = c :: cs
        rw [List.nil_append, ← hsp, ih]
    · rw [if_neg hc]
      cases hsp : pySplit sep cs with
      | nil => exact absurd hsp (pySplit_ne_nil sep cs)
      | cons r rs =>
        cases rs with
        | nil =>
          show (c :: r) = c :: cs
          have : pyJoin sep [r] = r := rfl
          rw [hsp] at ih
          simpa using (this ▸ ih)
        | cons r₂ rs₂ =>
          show (c :: r) ++ sep :: pyJoin sep (r₂ :: rs₂) = c :: cs
          rw [hsp] at ih
          show c :: (r ++ sep :: pyJoin sep (r₂ :: rs₂)) = c :: cs
          rw [show r ++ sep :: pyJoin sep (r₂ :: rs₂)
              = pyJoin sep (r :: r₂ :: rs₂) from rfl, ih]

/-- Splitting a separator-free string yields the single-piece list. -/
theorem pySplit_sep_free (sep : Char) :
    ∀ (s : Str), sep ∉ s → pySplit sep s = [s] := by
  intro s
  induction s with
  | nil => intro _; rfl
  | cons c cs ih =>
    intro h
    have hc : ¬ c = sep := fun he => h (he ▸ List.mem_cons_self c cs)
    simp only [pySplit, hc, if_false]
    rw [ih fun hm => h (List.mem_cons_of_mem c hm)]

/-- Splitting `x ++ sep :: t` with `x` separator-free peels off `x`. -/
theorem pySplit_append_sep (sep : Char) :
    ∀ (x t : Str), sep ∉ x →
      pySplit sep (x ++ sep :: t) = x :: pySplit sep t := by
  intro x
  induction x with
  | nil => intro t _; simp [pySplit]
  | cons c x' ih =>
    intro t h
    have hc : ¬ c = sep := fun he => h (he ▸ List.mem_cons_self c x')
    simp only [List.cons_append, pySplit, hc, if_false, List.append_eq]
    rw [ih t fun hm => h (List.mem_cons_of_mem c hm)]

/-- Splitting a join of separator-free pieces gives back the pieces. -/
theorem pySplit_pyJoin (sep : Char) :
    ∀ (xs : List Str), xs ≠ [] → (∀ x ∈ xs, sep ∉ x) →
      pySplit sep (pyJoin sep xs) = xs := by
  intro xs
  induction xs with
  | nil => intro h _; exact absurd rfl h
  | cons x xs ih =>
    intro _ h
    cases xs with
    | nil =>
      show pySplit sep x = [x]
      exact pySplit_sep_free sep x (h x (List.mem_cons_self x []))
    | cons x₂ xs₂ =>
      show pySplit sep (x ++ sep :: pyJoin sep (x₂ :: xs₂)) = x :: x₂ :: xs₂
      rw [pySplit_append_sep sep x _ (h x (List.mem_cons_self x _))]
      rw [ih (by simp) fun y hy => h y (List.mem_cons_of_mem x hy)]

/-- The space-to-underscore substitution of `fix_short_id`. -/
def substSp (c : Char) : Char := if c = ' ' then '_' else c

/-- Stripping `[ _-]` characters from both ends (the candidate regex
core). -/
def stripCore (x : Str) : Str :=
  ((x.dropWhile isSepCh).reverse.dropWhile isSepCh).reverse

/-- `contains` agrees with membership for characters. -/
theorem containsChar_iff (l : Str) (a : Char) : l.contains a = true ↔ a ∈ l := by
  rw [show l.contains a = l.elem a from rfl]
  exact List.elem_iff

/-- Normal form of `fix_short_id`: either the stripped core (when the
regex matches) or the space-substituted input (when it does not). -/
theorem fix_short_id_eq (x : Str) :
    fix_short_id x =
      if (stripCore x).all (fun c => !(isSepCh c)) then stripCore x
      else x.map substSp := by
  have hs : ((x.dropWhile isSepCh).reverse.dropWhile isSepCh).reverse
      = stripCore x := rfl
  by_cases h : (stripCore x).all (fun c => !(isSepCh c)) = true
  · have hns : ' ' ∉ stripCore x := by
      intro hm
      have := List.all_eq_true.mp h ' ' hm
      simp [isSepCh] at this
    simp [fix_short_id, hs, h, hns]
  · by_cases hx : x.contains ' ' = true
    · have hmx : ' ' ∈ x := (containsChar_iff _ _).mp hx
      simp only [fix_short_id, hs, h, if_false, Bool.false_eq_true]
      rw [if_pos hx, pyReplace_single]
      exact List.map_congr_left fun a _ => rfl
    · have hnm : ' ' ∉ x := fun hm => hx ((containsChar_iff _ _).mpr hm)
      simp only [fix_short_id, hs, h, if_false, Bool.false_eq_true]
      rw [if_neg (fun hc => hx hc)]
      exact (map_subst_id ' ' '_' x hnm).symm

/-- `substSp` preserves the separator class. -/
theorem isSepCh_substSp (c : Char) : isSepCh (substSp c) = isSepCh c := by
  by_cases h : c = ' '
  · subst h; rfl
  · simp [substSp, h]

/-- `substSp` is idempotent. -/
theorem substSp_substSp (c : Char) : substSp (substSp c) = substSp c := by
  by_cases h : c = ' '
  · subst h; rfl
  · simp [substSp, h]

/-- Dropping separators from a separator-free list is the identity. -/
theorem dropWhile_all_not {p : Char → Bool} {l : Str}
    (h : l.all (fun c => !(p c)) = true) : l.dropWhile p = l := by
  cases l with
  | nil => rfl
  | cons c cs =>
    have hc : p c = false := by
      have := List.all_eq_true.mp h c (List.mem_cons_self c cs)
      simpa using this
    simp [List.dropWhile_cons, hc]

/-- Stripping a separator-free list is the identity. -/
theorem stripCore_of_all {l : Str}
    (h : l.all (fun c => !(isSepCh c)) = true) : stripCore l = l := by
  unfold stripCore
  rw [dropWhile_all_not h, dropWhile_all_not (by rwa [List.all_reverse]),
    List.reverse_reverse]

/-- `dropWhile` commutes with a class-preserving character map. -/
theorem dropWhile_map_comm {p : Char → Bool} {f : Char → Char}
    (hf : ∀ c, p (f c) = p c) :
    ∀ (l : Str), (l.map f).dropWhile p = (l.dropWhile p).map f := by
  intro l
  induction l with
  | nil => rfl
  | cons c cs ih =>
    simp only [List.map_cons, List.dropWhile_cons, hf c]
    by_cases hc : p c = true
    · rw [if_pos hc, if_pos hc, ih]
    · have hcf : p c = false := by
        cases hpc : p c
        · rfl
        · exact absurd hpc hc
      simp [hcf]

/-- Stripping commutes with the space substitution. -/
theorem stripCore_map (l : Str) :
    stripCore (l.map substSp) = (stripCore l).map substSp := by
  unfold stripCore
  rw [dropWhile_map_comm isSepCh_substSp, ← List.map_reverse,
    dropWhile_map_comm isSepCh_substSp, ← List.map_reverse]

/-- The separator check ignores the space substitution. -/
theorem all_map_substSp (l : Str) :
    (l.map substSp).all (fun c => !(isSepCh c)) = l.all (fun c => !(isSepCh c)) := by
  rw [List.all_map]
  have he : ((fun c => !(isSepCh c)) ∘ substSp) = fun c => !(isSepCh c) :=
    funext fun c => by simp [Function.comp, isSepCh_substSp]
  rw [he]

/-- Members of the stripped core are members of the original. -/
theorem mem_stripCore {x : Str} {c : Char} (h : c ∈ stripCore x) : c ∈ x := by
  unfold stripCore at h
  rw [List.mem_reverse] at h
  have h₂ := (List.dropWhile_sublist (l := (x.dropWhile isSepCh).reverse)
    (p := isSepCh)).mem h
  rw [List.mem_reverse] at h₂
  exact (List.dropWhile_sublist (l := x) (p := isSepCh)).mem h₂

/-- `fix_short_id` is idempotent. -/
theorem fix_short_id_idem (x : Str) :
    fix_short_id (fix_short_id x) = fix_short_id x := by
  rw [fix_short_id_eq x]
  by_cases h : (stripCore x).all (fun c => !(isSepCh c)) = true
  · rw [if_pos h, fix_short_id_eq, stripCore_of_all h, if_pos h]
  · rw [if_neg h, fix_short_id_eq, stripCore_map, all_map_substSp, if_neg h,
      List.map_map]
    exact List.map_congr_left fun c _ => substSp_substSp c

/-- `fix_short_id` introduces no slash. -/
theorem fix_short_id_no_slash {x : Str} (h : '/' ∉ x) : '/' ∉ fix_short_id x := by
  rw [fix_short_id_eq]
  by_cases hall : (stripCore x).all (fun c => !(isSepCh c)) = true
  · rw [if_pos hall]
    exact fun hm => h (mem_stripCore hm)
  · rw [if_neg hall]
    intro hm
    obtain ⟨c, hc, he⟩ := List.mem_map.mp hm
    by_cases hcs : c = ' '
    · rw [hcs] at he
      exact absurd he (by decide)
    · rw [show substSp c = c from if_neg hcs] at he
      exact h (he ▸ hc)

/-- The last element w.r.t. a default is a member of a nonempty list. -/
theorem getLastD_mem {α : Type} :
    ∀ (l : List α) (d : α), l ≠ [] → l.getLastD d ∈ l := by
  intro l
  induction l with
  | nil => intro d h; exact absurd rfl h
  | cons x xs ih =>
    intro d _
    cases xs with
    | nil => simp
    | cons y ys =>
      rw [List.getLastD_cons]
      exact List.mem_cons_of_mem x (ih x (by simp))

/-- The prelude is the identity on a path without spaces, percent escapes
or occurrences of a cleanup source. -/
theorem pathPrep_id (cleanup : List (Str × Str)) (s : Str)
    (h₁ : ' ' ∉ s) (h₂ : '%' ∉ s)
    (h₃ : ∀ sr ∈ cleanup, containsSub s sr.1 = false) :
    pathPrep cleanup s = s := by
  unfold pathPrep
  rw [pyReplace_single, map_subst_id ' ' '_' s h₁, unquote_no_percent s h₂,
    cleanup_fold_id cleanup s h₃]

/-- Closed form of `process_ids` (the `if parts:` branch is always
taken). -/
theorem process_ids_eq (cleanup : List (Str × Str)) (item : IdsItem) :
    process_ids cleanup item =
      { atId := pyJoin '/' ((pySplit '/' (pathPrep cleanup item.atId)).dropLast
          ++ [fix_short_id ((pySplit '/' (pathPrep cleanup item.atId)).getLastD [])]),
        id := fix_short_id ((pySplit '/' (pathPrep cleanup item.atId)).getLastD []) } := by
  have hne : (pySplit '/' (pathPrep cleanup item.atId)).isEmpty = false :=
    List.isEmpty_eq_false.mpr (pySplit_ne_nil _ _)
  simp [process_ids, hne]

/-- C9 (amended): the ID/path normalization step is idempotent on every
item whose once-processed `@id` contains no space, no percent escape and
no occurrence of a configured cleanup source.  (The counterexample shows
the unconditional claim fails: a cleanup mapping whose replacement
reintroduces its source — e.g. `a → aa` — is re-applied by the second
run; percent escapes decoded by `unquote` and spaces introduced by
substitutions equally break idempotence.) -/
theorem process_ids_idempotent (cleanup : List (Str × Str)) (item : IdsItem)
    (h₁ : ' ' ∉ (process_ids cleanup item).atId)
    (h₂ : '%' ∉ (process_ids cleanup item).atId)
    (h₃ : ∀ sr ∈ cleanup, containsSub (process_ids cleanup item).atId sr.1 = false) :
    process_ids cleanup (process_ids cleanup item) = process_ids cleanup item := by
  have heq := process_ids_eq cleanup item
  set P := pathPrep cleanup item.atId with hP
  set parts := pySplit '/' P with hparts
  set l := parts.getLastD [] with hl
  set fl := fix_short_id l with hfl
  set pre := parts.dropLast with hpre
  have hne : parts ≠ [] := by rw [hparts]; exact pySplit_ne_nil '/' P
  have hsl : ∀ x ∈ parts, '/' ∉ x := by
    rw [hparts]; exact pySplit_sep_not_mem '/' P
  have hlm : l ∈ parts := by rw [hl]; exact getLastD_mem parts [] hne
  have hslash : '/' ∉ fl := by
    rw [hfl]; exact fix_short_id_no_slash (hsl l hlm)
  have hallp : ∀ x ∈ pre ++ [fl], '/' ∉ x := by
    intro x hx
    rcases List.mem_append.mp hx with hx | hx
    · exact hsl x (List.mem_of_mem_dropLast (hpre ▸ hx))
    · rw [List.mem_singleton] at hx
      subst hx
      exact hslash
  have hprep2 : pathPrep cleanup (process_ids cleanup item).atId
      = (process_ids cleanup item).atId := pathPrep_id cleanup _ h₁ h₂ h₃
  rw [process_ids_eq cleanup (process_ids cleanup item), hprep2]
  simp only [heq]
  rw [pySplit_pyJoin '/' (pre ++ [fl]) (by simp) hallp]
  rw [List.getLastD_concat, List.dropLast_concat]
  rw [hfl, fix_short_id_idem]

/-- C9 witness: for the cleanup mapping `x → y` and an `@id` whose first
pass leaves no space, percent or cleanup source, the second application
changes nothing. -/
theorem process_ids_idempotent_witness :
    process_ids [(str "x", str "y")]
        (process_ids [(str "x", str "y")] { atId := str "/a b", id := str "z" })
      = process_ids [(str "x", str "y")] { atId := str "/a b", id := str "z" } :=
  process_ids_idempotent [(str "x", str "y")]
    { atId := str "/a b", id := str "z" } (by decide) (by decide) (by decide)

/-!
## Content file ordering (`utils/files.py` `_sort_content_files`)

A content file is represented by the integer value of its filename stem
(`int(name)` for `name, _ = filepath.name.split(".")`).  The sort key is
the Python f-string `f"{int(name):07d}"`: the decimal digits of the
number, left-padded with `'0'` to width 7 (longer numbers keep all their
digits), compared as strings — i.e. lexicographically by character.
Python's `sorted` is a stable sort, and the stably sorted permutation is
unique, so insertion sort with the same key produces the same list.
-/

/-- The decimal digit character for `d`. -/
def chrD (d : Nat) : Char := Char.ofNat (48 + d)

/-- The `k` low decimal digits of `n`, most significant first
(zero-padded to width `k`). -/
def padDigits : Nat → Nat → List Nat
  | 0, _ => []
  | k + 1, n => n / 10 ^ k :: padDigits k (n % 10 ^ k)

/-- Little-endian decimal digits, by fuel (`n` itself is enough fuel). -/
def digitsRevAux : Nat → Nat → List Nat
  | 0, _ => []
  | _ + 1, 0 => []
  | fuel + 1, n => n % 10 :: digitsRevAux fuel (n / 10)

/-- The digit string of `f"{n:07d}"`: seven zero-padded digits for
`n < 10^7`, the plain decimal digits otherwise. -/
def keyDigits (n : Nat) : List Nat :=
  if n < 10 ^ 7 then padDigits 7 n else (digitsRevAux n n).reverse

/-- The sort key of `_sort_content_files` as a character string. -/
def key (n : Nat) : List Char := (keyDigits n).map chrD

/-- The string comparison `key a <= key b` used by `sorted`. -/
def fileKeyLe (a b : Nat) : Prop := key a ≤ key b

instance : DecidableRel fileKeyLe :=
  fun a b => inferInstanceAs (Decidable (key a ≤ key b))

instance : IsTotal Nat fileKeyLe := ⟨fun a b => le_total (key a) (key b)⟩

instance : IsTrans Nat fileKeyLe := ⟨fun _ _ _ hab hbc => le_trans hab hbc⟩

/-- `_sort_content_files`: sort the content files by their zero-padded
key string (a stable sort, as Python's `sorted`). -/
def sort_content_files (content : List Nat) : List Nat :=
  List.insertionSort fileKeyLe content

/-- C7 counterexample: the zero-padding width is 7, so an eight-digit
filename sorts *before* a seven-digit one: `10000000` comes out first
although `9999999 < 10000000` — the processing order is not the numeric
order of the filenames. -/
theorem sort_content_files_cex :
    sort_content_files [9999999, 10000000] = [10000000, 9999999] ∧
    ¬ List.Sorted (· ≤ ·) (sort_content_files [9999999, 10000000]) := by
  constructor
  · decide
  · decide

/-- Decomposing a lexicographic comparison of nonempty lists. -/
theorem lex_cons_iff {c₁ c₂ : Char} {l₁ l₂ : List Char} :
    List.Lex (· < ·) (c₁ :: l₁) (c₂ :: l₂) ↔
      c₁ < c₂ ∨ (c₁ = c₂ ∧ List.Lex (· < ·) l₁ l₂) := by
  constructor
  · intro h
    cases h with
    | cons h => exact Or.inr ⟨rfl, h⟩
    | rel h => exact Or.inl h
  · intro h
    rcases h with h | ⟨he, h⟩
    · exact List.Lex.rel h
    · rw [he]
      exact List.Lex.cons h

/-- Digit characters compare like the digits. -/
theorem chrD_lt_iff (d e : Nat) (hd : d < 10) (he : e < 10) :
    chrD d < chrD e ↔ d < e := by
  interval_cases d <;> interval_cases e <;> decide

/-- Digit characters are equal exactly for equal digits. -/
theorem chrD_eq_iff (d e : Nat) (hd : d < 10) (he : e < 10) :
    chrD d = chrD e ↔ d = e := by
  interval_cases d <;> interval_cases e <;> decide

/-- Comparing numbers below `P` blocks: quotient first, then remainder. -/
theorem lt_iff_div_mod_lt (P a b : Nat) (hP : 0 < P) :
    a < b ↔ a / P < b / P ∨ (a / P = b / P ∧ a % P < b % P) := by
  have ha := Nat.div_add_mod a P
  have hb := Nat.div_add_mod b P
  have hma : a % P < P := Nat.mod_lt a hP
  have hmb : b % P < P := Nat.mod_lt b hP
  constructor
  · intro hab
    rcases Nat.lt_or_ge (a / P) (b / P) with h | h
    · exact Or.inl h
    · have heq : a / P = b / P :=
        Nat.le_antisymm (Nat.div_le_div_right (Nat.le_of_lt hab)) h
      refine Or.inr ⟨heq, ?_⟩
      rw [← heq] at hb
      set t := P * (a / P) with ht
      omega
  · intro h
    rcases h with h | ⟨heq, hmod⟩
    · have h2 : P * (a / P + 1) ≤ P * (b / P) :=
        Nat.mul_le_mul_left P (Nat.succ_le_of_lt h)
      have h3 : P * (a / P) + P = P * (a / P + 1) := by ring
      have h4 : P * (a / P) + P ≤ P * (b / P) := h3 ▸ h2
      set t := P * (a / P) with ht
      set u := P * (b / P) with hu
      omega
    · rw [← heq] at hb
      set t := P * (a / P) with ht
      omega

/-- Lexicographic comparison of equal-width zero-padded digit strings is
numeric comparison. -/
theorem padDigits_lt_iff :
    ∀ (k a b : Nat), a < 10 ^ k → b < 10 ^ k →
      (List.Lex (· < ·) ((padDigits k a).map chrD) ((padDigits k b).map chrD)
        ↔ a < b) := by
  intro k
  induction k with
  | zero =>
    intro a b ha hb
    interval_cases a
    interval_cases b
    simp [padDigits]
  | succ k ih =>
    intro a b ha hb
    have hP : 0 < 10 ^ k := pow_pos (by norm_num) k
    have hsucc : 10 ^ (k + 1) = 10 * 10 ^ k := by ring
    have hda : a / 10 ^ k < 10 :=
      (Nat.div_lt_iff_lt_mul hP).mpr (hsucc ▸ ha)
    have hdb : b / 10 ^ k < 10 :=
      (Nat.div_lt_iff_lt_mul hP).mpr (hsucc ▸ hb)
    simp only [padDigits, List.map_cons]
    rw [lex_cons_iff, chrD_lt_iff _ _ hda hdb, chrD_eq_iff _ _ hda hdb,
      ih (a % 10 ^ k) (b % 10 ^ k) (Nat.mod_lt a hP) (Nat.mod_lt b hP)]
    exact (lt_iff_div_mod_lt (10 ^ k) a b hP).symm

/-- Below the padding width the key is the seven-digit rendering. -/
theorem key_eq_pad {n : Nat} (h : n < 10 ^ 7) :
    key n = (padDigits 7 n).map chrD := by
  simp only [key, keyDigits]
  rw [if_pos h]

/-- Below the padding width, key order is numeric order (strict). -/
theorem key_lt_iff (a b : Nat) (ha : a < 10 ^ 7) (hb : b < 10 ^ 7) :
    key a < key b ↔ a < b := by
  rw [key_eq_pad ha, key_eq_pad hb]
  exact padDigits_lt_iff 7 a b ha hb

/-- Below the padding width, key order is numeric order. -/
theorem key_le_iff (a b : Nat) (ha : a < 10 ^ 7) (hb : b < 10 ^ 7) :
    fileKeyLe a b ↔ a ≤ b := by
  constructor
  · intro h
    refine Nat.le_of_not_lt fun hba => ?_
    exact absurd ((key_lt_iff b a hb ha).mpr hba) (not_lt.mpr h)
  · intro h
    refine le_of_not_lt fun hk => ?_
    exact absurd ((key_lt_iff b a hb ha).mp hk) (Nat.not_lt.mpr h)

/-- C7 (amended): as long as every content filename value is below
`10^7` (it fits in the seven-digit zero padding), the orchestrator
processes the files in nondecreasing numeric order of their filenames:
the sorted list is numerically sorted and is a permutation of the input
(and, the sort being stable, ties keep their input order). -/
theorem sort_content_files_sorted (l : List Nat) (h : ∀ n ∈ l, n < 10 ^ 7) :
    List.Sorted (· ≤ ·) (sort_content_files l) ∧
      (sort_content_files l).Perm l := by
  refine ⟨?_, List.perm_insertionSort fileKeyLe l⟩
  have hs : List.Sorted fileKeyLe (sort_content_files l) :=
    List.sorted_insertionSort fileKeyLe l
  have hmem : ∀ x ∈ sort_content_files l, x < 10 ^ 7 := fun x hx =>
    h x ((List.mem_insertionSort fileKeyLe).mp hx)
  exact List.Pairwise.imp_of_mem
    (fun ha hb hab => (key_le_iff _ _ (hmem _ ha) (hmem _ hb)).mp hab) hs

/-- C7 witness: the amended ordering theorem applied to a concrete list
of in-range filenames. -/
theorem sort_content_files_sorted_witness :
    List.Sorted (· ≤ ·) (sort_content_files [12, 3, 9999999, 1]) ∧
      (sort_content_files [12, 3, 9999999, 1]).Perm [12, 3, 9999999, 1] :=
  sort_content_files_sorted [12, 3, 9999999, 1] (by decide)
